import Mathlib

/-!
Verification of the sentiment-analysis pipeline (`src/sentimentanalysis.c`).

The C program is shallowly embedded here: byte buffers become `List ℕ`
(byte values `0..255`), C `int` becomes `ℤ`, C `float`/`double` values are
modelled with exact rationals `ℚ` except where a rounding step is itself the
subject of a claim (the `0.7` split factor, modelled exactly by `trainSizeC`
below), and `expf` is modelled over the reals.  Flat C arrays indexed by
`i * width + j` become total maps `ℕ → ℚ`.
-/

namespace SentimentAnalysis

/-- The constant `MAX_TOKENS` (size of the per-post text buffer). -/
def MAX_TOKENS : ℕ := 1024

/-- The constant `NUM_FEATURES` (embedding dimensionality). -/
def NUM_FEATURES : ℕ := 1024

/-- The `Post` struct: `text` is the list of bytes stored in the `char`
buffer before the NUL terminator, `label` the numeric class label. -/
structure Post where
  text : List ℕ
  label : ℤ
deriving Repr, DecidableEq

/-- `custom_strlen`: length of the byte buffer up to the first NUL byte. -/
def custom_strlen (text : List ℕ) : ℕ :=
  (text.takeWhile (fun c => decide (c ≠ 0))).length

/-- One `strtok` call on the remaining buffer `s` with delimiter set `delims`:
skip leading delimiters; return `none` when the buffer is exhausted, otherwise
the token (the maximal run of non-delimiters) together with the rest of the
buffer after the token and the single delimiter that `strtok` overwrites. -/
def strtokStep (delims : List ℕ) (s : List ℕ) : Option (List ℕ) × List ℕ :=
  let s1 := s.dropWhile (fun c => decide (c ∈ delims))
  match s1 with
  | [] => (none, [])
  | _ :: _ =>
    (some (s1.takeWhile (fun c => decide (c ∉ delims))),
     (s1.dropWhile (fun c => decide (c ∉ delims))).drop 1)

/-- Digit-accumulation loop of C `atoi`. -/
def atoiLoop : List ℕ → ℤ → ℤ
  | c :: rest, acc =>
    if 48 ≤ c ∧ c ≤ 57 then atoiLoop rest (acc * 10 + ((c : ℤ) - 48)) else acc
  | [], acc => acc

/-- C `atoi`: skip whitespace, accept one optional sign, then decimal digits. -/
def atoi (s : List ℕ) : ℤ :=
  let s1 := s.dropWhile (fun c => decide (c = 32 ∨ (9 ≤ c ∧ c ≤ 13)))
  match s1 with
  | 43 :: rest => atoiLoop rest 0
  | 45 :: rest => -(atoiLoop rest 0)
  | _ => atoiLoop s1 0

/-- One iteration of the `loadDataset` read loop on a single input line
(given as its bytes, trailing newline included when present): six `strtok`
calls — the label token, four skipped comma-separated columns, then the text
payload running to the newline.  The record is dropped (`none`) when the label
token or the text token is missing; otherwise the text is truncated to
`MAX_TOKENS - 1` bytes exactly as the `strncpy` call does. -/
def parseLine (line : List ℕ) : Option Post :=
  match strtokStep [44] line with
  | (none, _) => none
  | (some labelTok, r1) =>
    let r2 := (strtokStep [44] r1).2
    let r3 := (strtokStep [44] r2).2
    let r4 := (strtokStep [44] r3).2
    let r5 := (strtokStep [44] r4).2
    match (strtokStep [10] r5).1 with
    | none => none
    | some textTok => some ⟨textTok.take (MAX_TOKENS - 1), atoi labelTok⟩

/-- `loadDataset` over an already-split list of input lines: each well-formed
line contributes one record, in order; malformed lines contribute nothing. -/
def loadDataset (lines : List (List ℕ)) : List Post := lines.filterMap parseLine

/-- The swap in the body of the `shuffleDataset` loop: exchange the elements at
positions `i` and `j`.  An out-of-range index (never produced by the loop)
leaves the list unchanged. -/
def swapElems (l : List α) (i j : ℕ) : List α :=
  match l[i]?, l[j]? with
  | some a, some b => (l.set i b).set j a
  | _, _ => l

/-- `shuffleDataset` with the stream of `rand()` draws made explicit: for each
`i < num_samples` in order, swap position `i` with `rand i % num_samples`. -/
def shuffleDataset (l : List α) (rand : ℕ → ℕ) : List α :=
  (List.range l.length).foldl (fun acc i => swapElems acc i (rand i % l.length)) l

/-- All 27 possible draws of the three values `rand i % 3` consumed when
shuffling a three-element dataset, each equiprobable when the `rand` draws
are uniform. -/
def randTriples3 : List (List ℕ) :=
  (List.range 3).flatMap fun a =>
    (List.range 3).flatMap fun b =>
      (List.range 3).map fun c => [a, b, c]

/-- The 27 equiprobable results of `shuffleDataset [0, 1, 2]`, one per draw of
the three `rand` values. -/
def shuffleOutcomes3 : List (List ℕ) :=
  randTriples3.map fun t => shuffleDataset [0, 1, 2] (fun i => t.getD i 0)

/-- Fuel-bounded base-2 logarithm: `log2F fuel n` equals `⌊log₂ n⌋` whenever
`1 ≤ n ≤ fuel` (structural recursion on the fuel, so the kernel can compute
it; see `nlog2_le` and `lt_nlog2`). -/
def log2F : ℕ → ℕ → ℕ
  | 0, _ => 0
  | fuel + 1, n => if 2 ≤ n then log2F fuel (n / 2) + 1 else 0

/-- `⌊log₂ n⌋` for `n ≥ 1`. -/
def nlog2 (n : ℕ) : ℕ := log2F n n

/-- Round the dyadic rational `a / 2^s` to the nearest integer, ties to even —
the IEEE-754 round-to-nearest-even rule. -/
def roundHalfEvenDiv (a s : ℕ) : ℕ :=
  if 2 * (a % 2 ^ s) < 2 ^ s then a / 2 ^ s
  else if 2 ^ s < 2 * (a % 2 ^ s) then a / 2 ^ s + 1
  else if a / 2 ^ s % 2 = 0 then a / 2 ^ s else a / 2 ^ s + 1

/-- The 53-bit significand of the binary64 literal `0.7` in the source: the
double nearest `0.7` is exactly `3152519739159347 / 2^52`. -/
def sig07 : ℕ := 3152519739159347

/-- `trainSize` as computed by `loadAndSplitDataset`:
`(int)(num_samples * 0.7)` under binary64 arithmetic.  The conversion of
`num_samples` to double is exact, so the exact product is the dyadic rational
`a / 2^52` with `a = num_samples * sig07`.  The multiplication rounds it to 53
significant bits (round to nearest, ties to even): with `2^L ≤ a < 2^(L+1)`
the rounded value is `roundHalfEvenDiv a (L - 52) * 2^(L-52) / 2^52`; when
`a < 2^52` the product has at most 52 bits, is exactly representable, and lies
below `1`.  The cast to `int` truncates toward zero (integer division, as all
quantities are nonnegative). -/
def trainSizeC (num_samples : ℕ) : ℤ :=
  if num_samples * sig07 = 0 then 0
  else if nlog2 (num_samples * sig07) < 52 then 0
  else
    ((roundHalfEvenDiv (num_samples * sig07) (nlog2 (num_samples * sig07) - 52)
        * 2 ^ (nlog2 (num_samples * sig07) - 52)) / 2 ^ 52 : ℕ)

/-- `testSize = num_samples - trainSize` as computed by `loadAndSplitDataset`. -/
def testSizeC (num_samples : ℕ) : ℤ := (num_samples : ℤ) - trainSizeC num_samples

/-- The diagnostic printed by `main` when a split is empty. -/
def emptyDatasetMsg : String := "Error: No samples found in dataset."

/-- The guard in `main` directly after loading and splitting: when either split
is empty the program reports an error and exits before any downstream stage
(in particular before any call to `evaluate`); otherwise both split sizes are
handed to the rest of the pipeline. -/
def mainGuard (lines : List (List ℕ)) : Except String (ℤ × ℤ) :=
  if trainSizeC (loadDataset lines).length = 0
      ∨ testSizeC (loadDataset lines).length = 0
  then Except.error emptyDatasetMsg
  else Except.ok (trainSizeC (loadDataset lines).length,
                  testSizeC (loadDataset lines).length)

/-- The numeric value the cast `(float)(dataset[i].text[j])` gives a stored
byte: `char` is signed on the reference platform (x86-64 Linux), so bytes at
or above `128` wrap to the negative values `b - 256`. -/
def signedCharVal (b : ℕ) : ℤ := if b < 128 then (b : ℤ) else (b : ℤ) - 256

/-- `tokenizeAndEmbed` as a transformation of the flat `token_ids` buffer
(modelled as a total map from flat index to value): position
`i * MAX_TOKENS + j` is overwritten with `text_i[j] / 255` — the byte read
through the platform's signed `char`, see `signedCharVal` — exactly when
`i < num_samples` and `j < custom_strlen text_i`; every other position keeps
whatever value the buffer already held — the function writes nothing there. -/
def tokenizeAndEmbed (dataset : List Post) (token_ids : ℕ → ℚ) : ℕ → ℚ :=
  fun idx =>
    match dataset[idx / MAX_TOKENS]? with
    | some p =>
      if idx % MAX_TOKENS < custom_strlen p.text then
        ((signedCharVal (p.text.getD (idx % MAX_TOKENS) 0) : ℤ) : ℚ) / 255
      else token_ids idx
    | none => token_ids idx

/-- `denseLayer`: one output per sample row, starting from `biases[0]` and
accumulating the products along the row exactly as the inner `k` loop does. -/
def denseLayer (inputs weights biases : ℕ → ℚ) (num_samples embedding_size : ℕ) :
    List ℚ :=
  (List.range num_samples).map fun i =>
    (List.range embedding_size).foldl
      (fun acc k => acc + inputs (i * embedding_size + k) * weights k) (biases 0)

/-- The scalar map applied by `sigmoidActivation`: `1 / (1 + exp (-x))`. -/
noncomputable def sigmoid (x : ℝ) : ℝ := 1 / (1 + Real.exp (-x))

/-- `sigmoidActivation`: elementwise in-place sigmoid over the outputs. -/
noncomputable def sigmoidActivation (outputs : List ℝ) : List ℝ := outputs.map sigmoid

/-- The decision rule inside `evaluate`: predict positive (label `4`) exactly
when the activated output exceeds the `0.6` threshold, else negative (`0`). -/
def predictedLabel (o : ℚ) : ℤ := if 3/5 < o then 4 else 0

/-- The `correct` counter of `evaluate`: how many samples have
`predicted_label == labels[i]`. -/
def countCorrect (outputs : List ℚ) (labels : List ℤ) : ℕ :=
  ((outputs.zip labels).filter fun p => decide (predictedLabel p.1 = p.2)).length

/-- `evaluate`: `(float)correct / num_samples`, with `num_samples` the common
length of the two arrays. -/
def evaluate (outputs : List ℚ) (labels : List ℤ) : ℚ :=
  (countCorrect outputs labels : ℚ) / (outputs.length : ℚ)

/-! ## Helper lemmas -/

/-- Prepending the displaced element to a list with position `j` overwritten by
`x` is a permutation of prepending `x` to the original list. -/
lemma cons_set_perm (x : α) : ∀ (xs : List α) (j : ℕ) (b : α), xs[j]? = some b →
    (b :: xs.set j x).Perm (x :: xs)
  | [], j, b, h => by simp at h
  | y :: ys, 0, b, h => by
    obtain rfl : y = b := by simpa using h
    exact List.Perm.swap x y ys
  | y :: ys, j + 1, b, h => by
    have ih : (b :: ys.set j x).Perm (x :: ys) :=
      cons_set_perm x ys j b (by simpa using h)
    have h1 : (b :: (y :: ys).set (j + 1) x) = b :: y :: ys.set j x := rfl
    rw [h1]
    exact ((List.Perm.swap y b _).trans (ih.cons y)).trans (List.Perm.swap x y ys)

/-- Exchanging the entries at two positions `i < j` yields a permutation. -/
lemma set_set_perm_of_lt : ∀ (l : List α) (i j : ℕ) (a b : α), i < j →
    l[i]? = some a → l[j]? = some b → ((l.set i b).set j a).Perm l
  | [], _, _, _, _, _, ha, _ => by simp at ha
  | _ :: _, _, 0, _, _, hij, _, _ => by omega
  | x :: xs, 0, j + 1, a, b, _, ha, hb => by
    obtain rfl : x = a := by simpa using ha
    exact cons_set_perm x xs j b (by simpa using hb)
  | x :: xs, i + 1, j + 1, a, b, hij, ha, hb => by
    have ih : ((xs.set i b).set j a).Perm xs :=
      set_set_perm_of_lt xs i j a b (by omega) (by simpa using ha) (by simpa using hb)
    exact ih.cons x

/-- Writing back the value already present at a position is the identity. -/
lemma set_getElem?_eq_self : ∀ (l : List α) (i : ℕ) (a : α), l[i]? = some a → l.set i a = l
  | [], _, _, h => by simp at h
  | x :: xs, 0, a, h => by
    obtain rfl : x = a := by simpa using h
    rfl
  | x :: xs, i + 1, a, h => by
    have := set_getElem?_eq_self xs i a (by simpa using h)
    simp [List.set_cons_succ, this]

/-- The swap performed by each `shuffleDataset` iteration is a permutation. -/
lemma swapElems_perm (l : List α) (i j : ℕ) : (swapElems l i j).Perm l := by
  rw [swapElems]
  rcases ha : l[i]? with _ | a
  · simp [ha]
  · rcases hb : l[j]? with _ | b
    · simp [ha, hb]
    · simp only [ha, hb]
      rcases lt_trichotomy i j with h | h | h
      · exact set_set_perm_of_lt l i j a b h ha hb
      · subst h
        obtain rfl : a = b := by rw [ha] at hb; exact Option.some.inj hb
        rw [List.set_set, set_getElem?_eq_self l i a ha]
      · rw [List.set_comm _ _ _ (Nat.ne_of_gt h)]
        exact set_set_perm_of_lt l j i b a h hb ha

/-- Folding swaps over any index list permutes the accumulator. -/
lemma foldl_swapElems_perm (rand : ℕ → ℕ) (n : ℕ) :
    ∀ (idxs : List ℕ) (acc : List α),
      (idxs.foldl (fun acc i => swapElems acc i (rand i % n)) acc).Perm acc
  | [], acc => List.Perm.refl acc
  | i :: rest, acc => by
    have ih := foldl_swapElems_perm rand n rest (swapElems acc i (rand i % n))
    exact ih.trans (swapElems_perm acc i (rand i % n))

/-- Folding `+ f k` over `range D` adds the sum of `f` over the range. -/
lemma foldl_add_range (D : ℕ) (f : ℕ → ℚ) (init : ℚ) :
    (List.range D).foldl (fun acc k => acc + f k) init
      = init + ∑ k ∈ Finset.range D, f k := by
  induction D with
  | zero => simp
  | succ d ih =>
    rw [List.range_succ, List.foldl_append, ih, Finset.sum_range_succ]
    simp [add_assoc]

/-- `log2F` lower bound: with enough fuel, `2 ^ log2F fuel n ≤ n`. -/
lemma log2F_le : ∀ (fuel n : ℕ), 1 ≤ n → n ≤ fuel → 2 ^ log2F fuel n ≤ n
  | 0, _, h1, h2 => by omega
  | fuel + 1, n, h1, h2 => by
    rw [log2F]
    by_cases h : 2 ≤ n
    · rw [if_pos h, pow_succ]
      have ih := log2F_le fuel (n / 2) (by omega) (by omega)
      omega
    · rw [if_neg h, pow_zero]
      omega

/-- `log2F` upper bound: with enough fuel, `n < 2 ^ (log2F fuel n + 1)`. -/
lemma lt_log2F : ∀ (fuel n : ℕ), 1 ≤ n → n ≤ fuel → n < 2 ^ (log2F fuel n + 1)
  | 0, _, h1, h2 => by omega
  | fuel + 1, n, h1, h2 => by
    rw [log2F]
    by_cases h : 2 ≤ n
    · rw [if_pos h, pow_succ]
      have ih := lt_log2F fuel (n / 2) (by omega) (by omega)
      omega
    · rw [if_neg h]
      have h2 : (2:ℕ) ^ (0 + 1) = 2 := by norm_num
      omega

/-- `nlog2` is a lower-exact base-2 logarithm on positive numbers. -/
lemma nlog2_le (n : ℕ) (h : 1 ≤ n) : 2 ^ nlog2 n ≤ n := log2F_le n n h le_rfl

/-- `nlog2` is an upper-exact base-2 logarithm on positive numbers. -/
lemma lt_nlog2 (n : ℕ) (h : 1 ≤ n) : n < 2 ^ (nlog2 n + 1) := lt_log2F n n h le_rfl

/-- Rounding to nearest overshoots the truncated quotient by at most one. -/
lemma roundHalfEvenDiv_le (a s : ℕ) : roundHalfEvenDiv a s ≤ a / 2 ^ s + 1 := by
  rw [roundHalfEvenDiv]
  split
  · omega
  · split
    · omega
    · split <;> omega

/-- The training split size is never negative. -/
lemma trainSizeC_nonneg (n : ℕ) : 0 ≤ trainSizeC n := by
  rw [trainSizeC]
  split
  · omega
  · split
    · omega
    · exact_mod_cast Nat.zero_le _

/-- An empty dataset yields `trainSize = 0`. -/
lemma trainSizeC_zero : trainSizeC 0 = 0 := by decide

/-- For a nonempty dataset the training split is strictly smaller than the
whole dataset, so the test split always keeps at least one sample. -/
lemma trainSizeC_lt (n : ℕ) (hn : 1 ≤ n) : trainSizeC n < n := by
  have hs : sig07 = 3152519739159347 := rfl
  have ha1 : 1 ≤ n * sig07 := by
    have h := Nat.mul_le_mul hn (show 1 ≤ sig07 by omega)
    omega
  rw [trainSizeC, if_neg (by omega)]
  by_cases hL : nlog2 (n * sig07) < 52
  · rw [if_pos hL]
    omega
  · rw [if_neg hL]
    push_neg at hL
    set a := n * sig07 with hadef
    set L := nlog2 a with hLdef
    set s := L - 52 with hsdef
    have h2L : 2 ^ L ≤ a := nlog2_le a ha1
    have hP52 : 2 ^ s * 2 ^ 52 = 2 ^ L := by
      rw [← pow_add]
      congr 1
      omega
    have hnum : sig07 * (2 ^ 52 + 1) < 2 ^ 104 := by norm_num [sig07]
    have hbound : (a + 2 ^ s) * 2 ^ 52 < (n * 2 ^ 52) * 2 ^ 52 := by
      calc (a + 2 ^ s) * 2 ^ 52 = a * 2 ^ 52 + 2 ^ s * 2 ^ 52 := by ring
        _ = a * 2 ^ 52 + 2 ^ L := by rw [hP52]
        _ ≤ a * 2 ^ 52 + a := by omega
        _ = n * (sig07 * (2 ^ 52 + 1)) := by rw [hadef]; ring
        _ < n * 2 ^ 104 := mul_lt_mul_of_pos_left hnum (by omega)
        _ = (n * 2 ^ 52) * 2 ^ 52 := by
            rw [show (2:ℕ) ^ 104 = 2 ^ 52 * 2 ^ 52 from by norm_num]
            ring
    have hcancel : a + 2 ^ s < n * 2 ^ 52 :=
      lt_of_mul_lt_mul_right hbound (Nat.zero_le _)
    have hfin : roundHalfEvenDiv a s * 2 ^ s < n * 2 ^ 52 := by
      have hr := roundHalfEvenDiv_le a s
      have hle : roundHalfEvenDiv a s * 2 ^ s ≤ (a / 2 ^ s) * 2 ^ s + 2 ^ s := by
        have h := Nat.mul_le_mul_right (2 ^ s) hr
        rw [add_mul, one_mul] at h
        exact h
      have hdm : (a / 2 ^ s) * 2 ^ s ≤ a := Nat.div_mul_le_self a _
      omega
    have hdiv : (roundHalfEvenDiv a s * 2 ^ s) / 2 ^ 52 < n := by
      rw [Nat.div_lt_iff_lt_mul (by norm_num)]
      exact hfin
    exact_mod_cast hdiv

/-! ## Claim theorems -/

/-- C1: the claim says every embedding position at or beyond the record's text
length is exactly `0.0`.  The code disproves this: `tokenizeAndEmbed` writes
only positions `j < custom_strlen text`, and the buffer comes from
`safe_malloc` (plain `malloc`), which does not zero it.  For the record
`"ab"` (length 2), position 2 of row 0 keeps whatever the buffer held —
here garbage value `7`, which is not `0`. -/
theorem tokenizeAndEmbed_padding_unwritten :
    (∀ buf : ℕ → ℚ, tokenizeAndEmbed [⟨[97, 98], 4⟩] buf 2 = buf 2) ∧
    tokenizeAndEmbed [⟨[97, 98], 4⟩] (fun _ => 7) 2 = 7 ∧
    tokenizeAndEmbed [⟨[97, 98], 4⟩] (fun _ => 7) 2 ≠ 0 :=
  ⟨fun _ => rfl, rfl, by norm_num [tokenizeAndEmbed, MAX_TOKENS, custom_strlen]⟩

/-- C3: `evaluate` predicts positive (4) exactly when the activated output is
strictly above the `0.6` threshold, returns `correct / N`, and for nonempty
inputs of matching length the result lies in `[0, 1]`. -/
theorem evaluate_spec (outputs : List ℚ) (labels : List ℤ)
    (hne : outputs ≠ []) (hlen : outputs.length = labels.length) :
    (∀ o : ℚ, predictedLabel o = 4 ↔ 3/5 < o) ∧
    (∀ o : ℚ, predictedLabel o = 0 ↔ ¬ 3/5 < o) ∧
    evaluate outputs labels
      = (countCorrect outputs labels : ℚ) / (outputs.length : ℚ) ∧
    0 ≤ evaluate outputs labels ∧ evaluate outputs labels ≤ 1 := by
  have hN : 0 < outputs.length := List.length_pos.mpr hne
  have hcount : countCorrect outputs labels ≤ outputs.length := by
    calc countCorrect outputs labels
        ≤ (outputs.zip labels).length := List.length_filter_le _ _
      _ ≤ outputs.length := by rw [List.length_zip]; omega
  refine ⟨?_, ?_, rfl, ?_, ?_⟩
  · intro o; by_cases h : (3:ℚ)/5 < o <;> simp [predictedLabel, h]
  · intro o; by_cases h : (3:ℚ)/5 < o <;> simp [predictedLabel, h]
  · exact div_nonneg (Nat.cast_nonneg _) (Nat.cast_nonneg _)
  · rw [evaluate, div_le_one (by exact_mod_cast hN)]
    exact_mod_cast hcount

/-- Closed witness for `evaluate_spec` at a concrete nonempty input. -/
theorem evaluate_spec_witness :
    (∀ o : ℚ, predictedLabel o = 4 ↔ 3/5 < o) ∧
    (∀ o : ℚ, predictedLabel o = 0 ↔ ¬ 3/5 < o) ∧
    evaluate [1, 1/2] [4, 0]
      = (countCorrect [1, 1/2] [4, 0] : ℚ) / (([1, 1/2] : List ℚ).length : ℚ) ∧
    0 ≤ evaluate [1, 1/2] [4, 0] ∧ evaluate [1, 1/2] [4, 0] ≤ 1 :=
  evaluate_spec [1, 1/2] [4, 0] (by decide) (by decide)

/-- C5: every `denseLayer` output row equals the bias plus the dot product of
the sample's embedding row with the weight vector. -/
theorem denseLayer_spec (inputs weights biases : ℕ → ℚ) (N D i : ℕ) (hi : i < N) :
    (denseLayer inputs weights biases N D).getD i 0
      = biases 0 + ∑ k ∈ Finset.range D, inputs (i * D + k) * weights k := by
  have hlen : i < (denseLayer inputs weights biases N D).length := by
    simpa [denseLayer] using hi
  rw [List.getD_eq_getElem _ _ hlen]
  simp only [denseLayer, List.getElem_map, List.getElem_range]
  exact foldl_add_range D _ _

/-- Closed witness for `denseLayer_spec` at a concrete row. -/
theorem denseLayer_spec_witness :
    (denseLayer (fun k => (k : ℚ)) (fun _ => 1) (fun _ => 5) 1 2).getD 0 0
      = 5 + ∑ k ∈ Finset.range 2, ((0 * 2 + k : ℕ) : ℚ) * 1 :=
  denseLayer_spec (fun k => (k : ℚ)) (fun _ => 1) (fun _ => 5) 1 2 0 (by decide)

/-- C8 (amended): `shuffleDataset` rearranges the records in place as a
permutation of its input — the multiset of records is preserved for every
dataset and every stream of `rand` draws. -/
theorem shuffleDataset_perm (l : List α) (rand : ℕ → ℕ) :
    (shuffleDataset l rand).Perm l :=
  foldl_swapElems_perm rand l.length (List.range l.length) l

/-- C8 counterexample: the permutation is not drawn uniformly.  Over the 27
equiprobable draws of `(rand 0 % 3, rand 1 % 3, rand 2 % 3)`, the identity
permutation of `[0, 1, 2]` arises 4 times while `[0, 2, 1]` arises 5 times;
a uniform distribution would give every permutation the same count. -/
theorem shuffleDataset_not_uniform :
    shuffleOutcomes3.count [0, 1, 2] = 4 ∧
    shuffleOutcomes3.count [0, 2, 1] = 5 ∧
    shuffleOutcomes3.count [0, 1, 2] ≠ shuffleOutcomes3.count [0, 2, 1] := by
  decide

/-- C9: a malformed line (one `parseLine` rejects — missing its text field)
contributes no record to the dataset and does not count toward the sample
total; the remaining lines are processed as if it were absent. -/
theorem loadDataset_drops_malformed (pre suf : List (List ℕ)) (m : List ℕ)
    (hm : parseLine m = none) :
    loadDataset (pre ++ m :: suf) = loadDataset (pre ++ suf) ∧
    (loadDataset (pre ++ m :: suf)).length = (loadDataset (pre ++ suf)).length := by
  have h : loadDataset (pre ++ m :: suf) = loadDataset (pre ++ suf) := by
    simp [loadDataset, List.filterMap_append, List.filterMap_cons, hm]
  exact ⟨h, by rw [h]⟩

/-- Closed witness for `loadDataset_drops_malformed`: the line `"0,a,b,c"`
(no text field) is dropped while the well-formed line `"4,a,b,c,d,hi"` stays. -/
theorem loadDataset_drops_malformed_witness :
    loadDataset ([[52, 44, 97, 44, 98, 44, 99, 44, 100, 44, 104, 105, 10]]
        ++ [48, 44, 97, 44, 98, 44, 99] :: [])
      = loadDataset ([[52, 44, 97, 44, 98, 44, 99, 44, 100, 44, 104, 105, 10]] ++ []) ∧
    (loadDataset ([[52, 44, 97, 44, 98, 44, 99, 44, 100, 44, 104, 105, 10]]
        ++ [48, 44, 97, 44, 98, 44, 99] :: [])).length
      = (loadDataset ([[52, 44, 97, 44, 98, 44, 99, 44, 100, 44, 104, 105, 10]]
          ++ [])).length :=
  loadDataset_drops_malformed [[52, 44, 97, 44, 98, 44, 99, 44, 100, 44, 104, 105, 10]]
    [] [48, 44, 97, 44, 98, 44, 99] (by decide)

/-- C10: the predicted label is always one of `0` and `4`, so a sample whose
ground-truth label is neither `0` nor `4` is never counted as correct: the
`correct` counter only credits samples labelled `0` or `4`. -/
theorem evaluate_label_domain :
    (∀ o : ℚ, predictedLabel o = 0 ∨ predictedLabel o = 4) ∧
    (∀ (o : ℚ) (lab : ℤ), lab ≠ 0 → lab ≠ 4 → predictedLabel o ≠ lab) ∧
    (∀ (outputs : List ℚ) (labels : List ℤ),
      countCorrect outputs labels =
        (((outputs.zip labels).filter fun p => decide (p.2 = 0 ∨ p.2 = 4)).filter
          fun p => decide (predictedLabel p.1 = p.2)).length) := by
  have hdom : ∀ o : ℚ, predictedLabel o = 0 ∨ predictedLabel o = 4 := by
    intro o
    by_cases h : (3:ℚ)/5 < o <;> simp [predictedLabel, h]
  refine ⟨hdom, ?_, ?_⟩
  · intro o lab h0 h4
    rcases hdom o with h | h <;> rw [h] <;> omega
  · intro outputs labels
    rw [countCorrect, List.filter_filter]
    congr 1
    apply List.filter_congr
    intro p _
    by_cases hp : predictedLabel p.1 = p.2
    · rcases hdom p.1 with h | h <;> simp [hp, hp ▸ h]
    · simp [hp]

/-- Closed witness for `evaluate_label_domain`: the out-of-domain label `7` is
never matched by a prediction. -/
theorem evaluate_label_domain_witness : predictedLabel (9/10) ≠ 7 :=
  evaluate_label_domain.2.1 (9/10) 7 (by decide) (by decide)

/-- C2: an empty dataset makes `main` report the explicit error and stop before
any downstream stage, and whenever the guard is passed both split sizes are
strictly positive — so `evaluate` is never reached with `N == 0` and its
division never has a zero divisor. -/
theorem pipeline_empty_dataset_error :
    mainGuard [] = Except.error emptyDatasetMsg ∧
    (∀ lines, (loadDataset lines).length = 0 →
      mainGuard lines = Except.error emptyDatasetMsg) ∧
    (∀ lines t s, mainGuard lines = Except.ok (t, s) → 0 < t ∧ 0 < s) := by
  have hzero : ∀ lines, (loadDataset lines).length = 0 →
      mainGuard lines = Except.error emptyDatasetMsg := by
    intro lines h
    rw [mainGuard, h]
    rw [if_pos (Or.inl trainSizeC_zero)]
  refine ⟨hzero [] rfl, hzero, ?_⟩
  intro lines t s hok
  rw [mainGuard] at hok
  by_cases hguard : trainSizeC (loadDataset lines).length = 0 ∨
      testSizeC (loadDataset lines).length = 0
  · rw [if_pos hguard] at hok
    exact absurd hok (by simp)
  · rw [if_neg hguard] at hok
    push_neg at hguard
    obtain ⟨rfl, rfl⟩ : trainSizeC (loadDataset lines).length = t ∧
        testSizeC (loadDataset lines).length = s := by
      simpa using hok
    constructor
    · exact lt_of_le_of_ne (trainSizeC_nonneg _) (Ne.symm hguard.1)
    · rcases Nat.eq_zero_or_pos (loadDataset lines).length with hn | hn
      · rw [hn] at hguard
        exact absurd trainSizeC_zero hguard.1
      · have hlt := trainSizeC_lt _ hn
        rw [testSizeC]
        omega

set_option maxRecDepth 8192 in
/-- Closed witness for `pipeline_empty_dataset_error`: ten well-formed input
lines load, split into sizes `7` and `3`, and pass the guard. -/
theorem pipeline_empty_dataset_error_witness : (0:ℤ) < 7 ∧ (0:ℤ) < 3 :=
  pipeline_empty_dataset_error.2.2
    (List.replicate 10 [52, 44, 97, 44, 98, 44, 99, 44, 100, 44, 104, 105, 10]) 7 3
    (by rfl)

set_option maxRecDepth 8192 in
/-- C7 counterexample: at `N = 90` the code computes
`trainSize = (int)(90 * 0.7) = 62` under binary64 arithmetic (the double
nearest `0.7` lies just below `7/10`, and `90 * 0.7` rounds down to
`62.99999999999999289…`), while the claimed `floor(0.7 * 90)` is `63`. -/
theorem trainSize_rounding_counterexample :
    trainSizeC 90 = 62 ∧ (7 * (90:ℤ)) / 10 = 63 ∧
    trainSizeC 90 ≠ (7 * (90:ℤ)) / 10 := by decide

set_option maxRecDepth 8192 in
/-- C7 (amended): the split sizes always satisfy
`trainSize + testSize = N`, and `trainSize` is the binary64 truncation of
`N * 0.7`, which coincides with `floor(0.7 * N)` for every `N < 90` (the
agreement first fails at `N = 90`). -/
theorem splitSizes_amended :
    (∀ N : ℕ, trainSizeC N + testSizeC N = N) ∧
    (∀ N : ℕ, N < 90 → trainSizeC N = (7 * (N:ℤ)) / 10) := by
  constructor
  · intro N
    rw [testSizeC]
    ring
  · decide

/-- Closed witness for `splitSizes_amended` at `N = 50`. -/
theorem splitSizes_amended_witness :
    trainSizeC 50 + testSizeC 50 = ((50:ℕ):ℤ) ∧
    trainSizeC 50 = (7 * ((50:ℕ):ℤ)) / 10 :=
  ⟨splitSizes_amended.1 50, splitSizes_amended.2 50 (by omega)⟩

/-- C6: `sigmoidActivation` maps each output in place to
`1 / (1 + exp (-x))`; every value of the sigmoid lies strictly between `0`
and `1`, and the sigmoid is monotone non-decreasing. -/
theorem sigmoidActivation_spec :
    (∀ outputs : List ℝ, (sigmoidActivation outputs).length = outputs.length ∧
      ∀ i, i < outputs.length →
        (sigmoidActivation outputs).getD i 0
          = 1 / (1 + Real.exp (-(outputs.getD i 0)))) ∧
    (∀ x : ℝ, 0 < sigmoid x ∧ sigmoid x < 1) ∧
    (∀ x y : ℝ, x ≤ y → sigmoid x ≤ sigmoid y) := by
  have hpos : ∀ x : ℝ, (0:ℝ) < 1 + Real.exp (-x) := fun x => by positivity
  refine ⟨?_, ?_, ?_⟩
  · intro outputs
    constructor
    · simp [sigmoidActivation]
    · intro i hi
      have hlen : i < (sigmoidActivation outputs).length := by
        simpa [sigmoidActivation] using hi
      rw [List.getD_eq_getElem _ _ hlen, List.getD_eq_getElem _ _ hi]
      simp [sigmoidActivation, sigmoid]
  · intro x
    constructor
    · rw [sigmoid]
      positivity
    · rw [sigmoid, div_lt_one (hpos x)]
      have h := Real.exp_pos (-x)
      linarith
  · intro x y hxy
    rw [sigmoid, sigmoid]
    apply one_div_le_one_div_of_le (hpos y)
    have h := Real.exp_le_exp.mpr (neg_le_neg hxy)
    linarith

/-- Closed witness for `sigmoidActivation_spec` at the input list `[0]` and the
points `0 ≤ 1`. -/
theorem sigmoidActivation_spec_witness :
    (sigmoidActivation [0]).getD 0 0 = 1 / (1 + Real.exp (-(([0] : List ℝ).getD 0 0))) ∧
    (0 < sigmoid 0 ∧ sigmoid 0 < 1) ∧ sigmoid 0 ≤ sigmoid 1 :=
  ⟨(sigmoidActivation_spec.1 [0]).2 0 (by norm_num),
   sigmoidActivation_spec.2.1 0,
   sigmoidActivation_spec.2.2 0 1 (by norm_num)⟩

/-- C4 counterexample: the claimed value formula fails off ASCII, and the
scenario's trailing zeros fail on the buffers the program actually supplies.
The byte `0xE9 = 233` is read through the platform's signed `char`, so the
code writes `(233 - 256) / 255 = -23/255` — not `233/255`, and negative,
outside `[0, 1]`.  And for the text `"ab"`, position 2 of the row keeps the
prior contents of the `safe_malloc` buffer (here `7`), not the claimed `0`. -/
theorem tokenizeAndEmbed_nonascii_counterexample :
    tokenizeAndEmbed [⟨[233], 0⟩] (fun _ => 0) 0 = -23/255 ∧
    tokenizeAndEmbed [⟨[233], 0⟩] (fun _ => 0) 0 ≠ (233 : ℚ) / 255 ∧
    tokenizeAndEmbed [⟨[233], 0⟩] (fun _ => 0) 0 < 0 ∧
    tokenizeAndEmbed [⟨[97, 98], 4⟩] (fun _ => 7) 2 = 7 ∧
    tokenizeAndEmbed [⟨[97, 98], 4⟩] (fun _ => 7) 2 ≠ 0 := by
  have h1 : tokenizeAndEmbed [⟨[233], 0⟩] (fun _ => 0) 0 = -23/255 := by rfl
  have h2 : tokenizeAndEmbed [⟨[97, 98], 4⟩] (fun _ => 7) 2 = 7 := by rfl
  refine ⟨h1, ?_, ?_, h2, ?_⟩
  · rw [h1]
    norm_num
  · rw [h1]
    norm_num
  · rw [h2]
    norm_num

/-- C4 (amended): for every in-range position `j < custom_strlen text_i` the
vectorizer writes `matrix[i][j] = signedCharVal (text_i[j]) / 255`; when the
byte is ASCII (below `128`) this is exactly `ord(text_i[j]) / 255` and lies in
`[0, 1]`.  The text `"ab"` vectorizes, over whatever buffer contents are
present, to `97/255, 98/255` on its two written positions, while positions 2
and 3 retain the prior buffer contents — they are `0` only when the buffer was
zeroed, which the program's `safe_malloc` buffer does not guarantee. -/
theorem tokenizeAndEmbed_written_amended (dataset : List Post) (buf : ℕ → ℚ)
    (i j : ℕ) (p : Post) (hp : dataset[i]? = some p)
    (hj : j < custom_strlen p.text) (hcap : p.text.length < MAX_TOKENS) :
    (tokenizeAndEmbed dataset buf (i * MAX_TOKENS + j)
        = ((signedCharVal (p.text.getD j 0) : ℤ) : ℚ) / 255 ∧
      (p.text.getD j 0 < 128 →
        tokenizeAndEmbed dataset buf (i * MAX_TOKENS + j)
            = ((p.text.getD j 0 : ℕ) : ℚ) / 255 ∧
          0 ≤ tokenizeAndEmbed dataset buf (i * MAX_TOKENS + j) ∧
          tokenizeAndEmbed dataset buf (i * MAX_TOKENS + j) ≤ 1)) ∧
    (tokenizeAndEmbed [⟨[97, 98], 4⟩] buf 0 = 97/255 ∧
     tokenizeAndEmbed [⟨[97, 98], 4⟩] buf 1 = 98/255 ∧
     tokenizeAndEmbed [⟨[97, 98], 4⟩] buf 2 = buf 2 ∧
     tokenizeAndEmbed [⟨[97, 98], 4⟩] buf 3 = buf 3) := by
  have hjlen : j < p.text.length :=
    lt_of_lt_of_le hj (List.Sublist.length_le (List.takeWhile_sublist _))
  have hjM : j < MAX_TOKENS := lt_trans hjlen hcap
  have hdiv : (i * MAX_TOKENS + j) / MAX_TOKENS = i := by
    rw [MAX_TOKENS] at hjM ⊢
    omega
  have hmod : (i * MAX_TOKENS + j) % MAX_TOKENS = j := by
    rw [MAX_TOKENS] at hjM ⊢
    omega
  have hval : tokenizeAndEmbed dataset buf (i * MAX_TOKENS + j)
      = ((signedCharVal (p.text.getD j 0) : ℤ) : ℚ) / 255 := by
    simp only [tokenizeAndEmbed, hdiv, hmod, hp]
    rw [if_pos hj]
  refine ⟨⟨hval, ?_⟩, by rfl, by rfl, by rfl, by rfl⟩
  intro hascii
  have hs : signedCharVal (p.text.getD j 0) = (p.text.getD j 0 : ℤ) := by
    rw [signedCharVal, if_pos hascii]
  refine ⟨?_, ?_, ?_⟩
  · rw [hval, hs]
    simp
  · rw [hval, hs]
    apply div_nonneg _ (by norm_num)
    exact_mod_cast Nat.zero_le _
  · rw [hval, hs, div_le_one (by norm_num)]
    have hb : p.text.getD j 0 ≤ 255 := by omega
    exact_mod_cast hb

/-- Closed witness for `tokenizeAndEmbed_written_amended` at the record `"ab"`,
row 0, position 0, over a buffer holding `7` everywhere. -/
theorem tokenizeAndEmbed_written_amended_witness :
    (tokenizeAndEmbed [⟨[97, 98], 4⟩] (fun _ => 7) (0 * MAX_TOKENS + 0)
        = (((⟨[97, 98], 4⟩ : Post).text.getD 0 0 : ℕ) : ℚ) / 255 ∧
      0 ≤ tokenizeAndEmbed [⟨[97, 98], 4⟩] (fun _ => 7) (0 * MAX_TOKENS + 0) ∧
      tokenizeAndEmbed [⟨[97, 98], 4⟩] (fun _ => 7) (0 * MAX_TOKENS + 0) ≤ 1) ∧
    (tokenizeAndEmbed [⟨[97, 98], 4⟩] (fun _ => 7) 0 = 97/255 ∧
     tokenizeAndEmbed [⟨[97, 98], 4⟩] (fun _ => 7) 1 = 98/255 ∧
     tokenizeAndEmbed [⟨[97, 98], 4⟩] (fun _ => 7) 2 = 7 ∧
     tokenizeAndEmbed [⟨[97, 98], 4⟩] (fun _ => 7) 3 = 7) := by
  have h := tokenizeAndEmbed_written_amended [⟨[97, 98], 4⟩] (fun _ => 7) 0 0
    ⟨[97, 98], 4⟩ (by decide) (by decide) (by decide)
  exact ⟨h.1.2 (by decide), h.2⟩

end SentimentAnalysis
